import Mathlib

/-!
Shallow embedding of the label-scattering core of the `autocontext`
repository (`core/labels.py`) together with the slice of `autocontext.py`
that feeds it, and proofs of the specified properties.

A numpy label array is modelled as a `Block`: a shape, a dtype tag and the
flat (C-order) list of voxel values.  `random.sample` is modelled as an
oracle `Sampler`: a function from the index of the call (the position in
the global random-draw sequence fixed by `random.seed`) and the population
and sample size to the chosen sample.  `ValidSampler` captures the
guarantees of `random.sample`: on a duplicate-free population it returns
the requested number of distinct members of the population.
-/

namespace Autocontext

/-- `int(math.ceil(float(a)/b))` for natural `a` and positive `b`. -/
def pyCeilDiv (a b : Nat) : Nat := (a + b - 1) / b

/-- A numpy array of integers: shape, dtype tag, flat C-order data. -/
structure Block where
  shape : List Nat
  dtype : Nat
  data : List Int
  deriving Repr, DecidableEq

instance : Inhabited Block := ⟨⟨[], 0, []⟩⟩

/-- The external random-draw oracle: argument 1 is the position of the call
in the global draw sequence (fixed by the seed), then the population and
the sample size, as in `random.sample(population, k)`. -/
def Sampler : Type := Nat → List Nat → Nat → List Nat

/-- Guarantees of `random.sample`: on a duplicate-free population it
returns `m` distinct members of the population whenever `m` does not
exceed the population size. -/
def ValidSampler (s : Sampler) : Prop :=
  ∀ t pool m, pool.Nodup → m ≤ pool.length →
    (s t pool m).length = m ∧ (s t pool m).Nodup ∧ ∀ x ∈ s t pool m, x ∈ pool

/-- A concrete valid sampler: take the first `m` elements of the pool. -/
def takeSampler : Sampler := fun _ pool m => pool.take m

/-- `numpy.where(block == v)`, flattened to C-order flat indices
(ascending, as numpy returns them). -/
def npWhere (b : Block) (v : Int) : List Nat :=
  (List.range b.data.length).filter (fun p => decide (b.data.getD p 0 = v))

/-- `wh_list = [numpy.where(label_block == i+1) for i in range(label_count)]`. -/
def whList (b : Block) (label_count : Nat) : List (List Nat) :=
  (List.range label_count).map (fun i : Nat => npWhere b ((i : Int) + 1))

/-- `numpy.zeros(label_block.shape, dtype=label_block.dtype)`. -/
def npZeros (b : Block) : Block :=
  { shape := b.shape, dtype := b.dtype, data := List.replicate b.shape.prod 0 }

/-- `block[wh] = v`: write value `v` at the given flat positions. -/
def setPositions (d : List Int) (ps : List Nat) (v : Int) : List Int :=
  ps.foldl (fun acc p => acc.set p v) d

/-- State of the inner loop of `scatter_labels_single_block`: number of
`random.sample` calls made so far, the block under construction, and
`available_list`. -/
structure ScatterState where
  t : Nat
  block : Block
  avail : List (List Nat)

/-- Body of the inner loop (`for i in range(label_count)`) of
`scatter_labels_single_block`: sample
`ceil(len(available_list[i])/(n-k))` indices, remove them from
`available_list[i]`, and write label `i+1` at their block coordinates. -/
def classStep (s : Sampler) (whl : List (List Nat)) (n k : Nat)
    (st : ScatterState) (i : Nat) : ScatterState :=
  let available_indices := st.avail.getD i []
  let num_samples := pyCeilDiv available_indices.length (n - k)
  let chosen_indices := s st.t available_indices num_samples
  let avail' := st.avail.set i
    (available_indices.filter (fun x => decide (x ∉ chosen_indices)))
  let wh := chosen_indices.map (fun j => (whl.getD i []).getD j 0)
  { t := st.t + 1,
    block := { st.block with data := setPositions st.block.data wh ((i : Int) + 1) },
    avail := avail' }

/-- Body of the outer loop (`for k in range(n)`) of
`scatter_labels_single_block`: build a zero block, run the inner loop over
all classes, and append the block to the result list. -/
def roundStep (s : Sampler) (lb : Block) (whl : List (List Nat))
    (label_count n : Nat) (acc : List Block × Nat × List (List Nat))
    (k : Nat) : List Block × Nat × List (List Nat) :=
  let st0 : ScatterState := ⟨acc.2.1, npZeros lb, acc.2.2⟩
  let st := (List.range label_count).foldl (classStep s whl n k) st0
  (acc.1 ++ [st.block], st.t, st.avail)

/-- The full run of `scatter_labels_single_block` starting at position `t0`
of the draw sequence, returning the scatter blocks together with the final
draw position and the final `available_list`. -/
def scatterRun (s : Sampler) (t0 : Nat) (label_block : Block)
    (label_count n : Nat) : List Block × Nat × List (List Nat) :=
  let whl := whList label_block label_count
  let avail0 := whl.map (fun wh => List.range wh.length)
  (List.range n).foldl (roundStep s label_block whl label_count n)
    ([], t0, avail0)

/-- `scatter_labels_single_block(label_block, label_count, n)`. -/
def scatter_labels_single_block (s : Sampler) (t0 : Nat) (label_block : Block)
    (label_count n : Nat) : List Block :=
  (scatterRun s t0 label_block label_count n).1

/-- `available_list` as it stands after the first `m` rounds of the outer
loop of `scatter_labels_single_block`. -/
def availAfter (s : Sampler) (t0 : Nat) (label_block : Block)
    (label_count n m : Nat) : List (List Nat) :=
  ((List.range m).foldl
    (roundStep s label_block (whList label_block label_count) label_count n)
    ([], t0, (whList label_block label_count).map (fun wh => List.range wh.length))).2.2

/-- `scatter_labels(label_blocks, label_count, n)` threading the draw
position through the blocks, together with the final draw position. -/
def scatter_labels_run (s : Sampler) (t0 : Nat) (label_blocks : List Block)
    (label_count n : Nat) : List (List Block) × Nat :=
  label_blocks.foldl
    (fun acc block =>
      let r := scatterRun s acc.2 block label_count n
      (List.zipWith (fun l b => l ++ [b]) acc.1 r.1, r.2.1))
    ((List.range n).map (fun _ => ([] : List Block)), t0)

/-- `scatter_labels(label_blocks, label_count, n)`. -/
def scatter_labels (s : Sampler) (t0 : Nat) (label_blocks : List Block)
    (label_count n : Nat) : List (List Block) :=
  (scatter_labels_run s t0 label_blocks label_count n).1

/-- Number of parameters of `def scatter_labels(label_blocks, label_count, n)`
in `core/labels.py`. -/
def scatter_labels_paramCount : Nat := 3

/-- Number of positional arguments of the call
`scatter_labels(blocks, label_count, runs, weights)` in `autocontext.py`. -/
def autocontext_scatterCall_argCount : Nat := 4

/-- Errors raised by the modelled slice of `autocontext`. -/
inductive PyErr where
  | exception
  | typeError
  deriving Repr, DecidableEq

/-- Python call semantics: calling a function of `params` parameters with
`args` positional arguments raises `TypeError` unless the counts agree. -/
def pyCall {α : Type} (params args : Nat) (k : Unit → Except PyErr α) :
    Except PyErr α :=
  if args = params then k () else Except.error PyErr.typeError

/-- The label phase of `autocontext(...)`: build default weights when none
are given, reject a weight list shorter than `runs`, truncate the weights,
then call `scatter_labels(blocks, label_count, runs, weights)` with four
positional arguments.  On success the loop would perform `runs` training
rounds, so the `ok` value is the number of training rounds performed. -/
def autocontext_labels_phase (runs : Nat) (weights : Option (List Int)) :
    Except PyErr Nat :=
  let ws := match weights with
    | none => List.replicate runs 1
    | some ws => ws
  if ws.length < runs then Except.error PyErr.exception
  else
    let _ws := ws.take runs
    pyCall scatter_labels_paramCount autocontext_scatterCall_argCount
      (fun _ => Except.ok runs)

/-- One update of a class pool: sample, then drop the sampled indices. -/
def drawPool (s : Sampler) (t m : Nat) (a : List Nat) : List Nat :=
  a.filter (fun x => decide (x ∉ s t a (pyCeilDiv a.length m)))

/-- Initial pool of class `i`: `range(len(wh_list[i][0]))`. -/
def initPool (whl : List (List Nat)) (i : Nat) : List Nat :=
  List.range ((whl.getD i []).length)

/-- The pool of class `i` before draw `k`, when a single-block scatter over
`K` classes into `n` rounds starts at draw position `t0`. -/
def poolSeq (s : Sampler) (t0 K n : Nat) (whl : List (List Nat)) (i : Nat) :
    Nat → List Nat
  | 0 => initPool whl i
  | k + 1 => drawPool s (t0 + k * K + i) (n - k) (poolSeq s t0 K n whl i k)

/-- The indices sampled for class `i` at draw `k`. -/
def chosenIdx (s : Sampler) (t0 K n : Nat) (whl : List (List Nat))
    (i k : Nat) : List Nat :=
  s (t0 + k * K + i) (poolSeq s t0 K n whl i k)
    (pyCeilDiv (poolSeq s t0 K n whl i k).length (n - k))

/-- The block positions that receive label `i+1` at draw `k`. -/
def posWrites (s : Sampler) (t0 K n : Nat) (whl : List (List Nat))
    (i k : Nat) : List Nat :=
  (chosenIdx s t0 K n whl i k).map (fun j => (whl.getD i []).getD j 0)

/-- The flat data of the `k`-th output block: all classes written into a
zero array of `P` entries. -/
def roundData (s : Sampler) (t0 K n : Nat) (whl : List (List Nat))
    (P k : Nat) : List Int :=
  (List.range K).foldl
    (fun d i => setPositions d (posWrites s t0 K n whl i k) ((i : Int) + 1))
    (List.replicate P 0)

/-- The inner loop of a round as a function of the class count. -/
def innerFold (s : Sampler) (whl : List (List Nat)) (n k : Nat)
    (st0 : ScatterState) (m : Nat) : ScatterState :=
  (List.range m).foldl (classStep s whl n k) st0

/-- The positions written for class `i` in terms of a snapshot of
`available_list` at the start of the round. -/
def writesFrom (s : Sampler) (whl : List (List Nat)) (n k t : Nat)
    (avail : List (List Nat)) (i : Nat) : List Nat :=
  (s (t + i) (avail.getD i [])
      (pyCeilDiv (avail.getD i []).length (n - k))).map
    (fun j => (whl.getD i []).getD j 0)

/-- The data of the block under construction after the first `m` classes of
a round, in terms of the snapshot of `available_list`. -/
def dataFold (s : Sampler) (whl : List (List Nat)) (n k t : Nat)
    (avail : List (List Nat)) (d0 : List Int) (m : Nat) : List Int :=
  (List.range m).foldl
    (fun d i => setPositions d (writesFrom s whl n k t avail i) ((i : Int) + 1))
    d0

/-- The outer loop of `scatter_labels_single_block` stopped after `m`
rounds. -/
def outerFold (s : Sampler) (t0 : Nat) (lb : Block) (K n m : Nat) :
    List Block × Nat × List (List Nat) :=
  (List.range m).foldl (roundStep s lb (whList lb K) K n)
    ([], t0, (whList lb K).map (fun wh => List.range wh.length))

/-- A 1-D test block with six class-1 voxels. -/
def blk6 : Block := ⟨[6], 0, [1, 1, 1, 1, 1, 1]⟩

/-- A 1-D test block with labels of classes 1 and 2 and unlabeled voxels. -/
def blkT : Block := ⟨[5], 0, [1, 0, 2, 1, 0]⟩

/-- A 1-D test block containing the out-of-range voxel value 5. -/
def blkX : Block := ⟨[3], 0, [5, 1, 0]⟩

/-! ### Generic helper lemmas -/

theorem list_getD_set {α : Type} (l : List α) (i j : Nat) (v d : α) :
    (l.set i v).getD j d = if i = j ∧ j < l.length then v else l.getD j d := by
  rcases Nat.lt_or_ge j l.length with hj | hj
  · rw [List.getD_eq_getElem _ _ (by simpa using hj), List.getD_eq_getElem _ _ hj,
      List.getElem_set]
    by_cases hij : i = j
    · simp [hij, hj]
    · simp [hij]
  · rw [List.getD_eq_default _ _ (by simpa using hj), List.getD_eq_default _ _ hj]
    have : ¬(i = j ∧ j < l.length) := fun h => absurd h.2 (Nat.not_lt.mpr hj)
    simp [this]

theorem setPositions_cons (d : List Int) (p : Nat) (ps : List Nat) (v : Int) :
    setPositions d (p :: ps) v = setPositions (d.set p v) ps v := rfl

theorem setPositions_length (d : List Int) (ps : List Nat) (v : Int) :
    (setPositions d ps v).length = d.length := by
  induction ps generalizing d with
  | nil => rfl
  | cons p ps ih => rw [setPositions_cons, ih, List.length_set]

theorem getD_setPositions (d : List Int) (ps : List Nat) (v : Int) (p : Nat) :
    (setPositions d ps v).getD p 0 =
      if p ∈ ps ∧ p < d.length then v else d.getD p 0 := by
  induction ps generalizing d with
  | nil => simp [setPositions]
  | cons q ps ih =>
    rw [setPositions_cons, ih, List.length_set, list_getD_set]
    simp only [List.mem_cons]
    by_cases h1 : p ∈ ps ∧ p < d.length
    · rw [if_pos h1, if_pos ⟨Or.inr h1.1, h1.2⟩]
    · rw [if_neg h1]
      by_cases h2 : q = p ∧ p < d.length
      · rw [if_pos h2, if_pos ⟨Or.inl h2.1.symm, h2.2⟩]
      · have h3 : ¬((p = q ∨ p ∈ ps) ∧ p < d.length) := by
          intro hc
          rcases hc.1 with hq | hps
          · exact h2 ⟨hq.symm, hc.2⟩
          · exact h1 ⟨hps, hc.2⟩
        rw [if_neg h2, if_neg h3]

theorem foldl_congr_mem {α β : Type} (l : List β) (f g : α → β → α) (a : α)
    (h : ∀ x ∈ l, ∀ acc, f acc x = g acc x) : l.foldl f a = l.foldl g a := by
  induction l generalizing a with
  | nil => rfl
  | cons x xs ih =>
    rw [List.foldl_cons, List.foldl_cons, h x (List.mem_cons_self x xs)]
    exact ih _ (fun y hy acc => h y (List.mem_cons_of_mem x hy) acc)

theorem length_filter_not_mem {l c : List Nat} (hl : l.Nodup) (hc : c.Nodup)
    (hsub : c ⊆ l) :
    (l.filter (fun x => decide (x ∉ c))).length = l.length - c.length := by
  have hperm : List.Perm (l.filter (fun x => decide (x ∈ c))) c := by
    apply List.Subperm.antisymm
    · exact List.subperm_of_subset (hl.filter _)
        (fun x hx => by simpa using (List.mem_filter.mp hx).2)
    · exact List.subperm_of_subset hc
        (fun x hx => List.mem_filter.mpr ⟨hsub hx, by simpa using hx⟩)
  have hsplit := List.length_eq_countP_add_countP (fun x => decide (x ∈ c)) (l := l)
  rw [List.countP_eq_length_filter, List.countP_eq_length_filter] at hsplit
  have hneg : l.filter (fun x => decide (x ∉ c))
      = l.filter (fun a => decide ¬(decide (a ∈ c) = true)) := by
    apply List.filter_congr
    intro x _
    simp
  rw [hperm.length_eq] at hsplit
  rw [hneg]
  omega

theorem getD_mem {l : List Nat} {j : Nat} (h : j < l.length) (d : Nat) :
    l.getD j d ∈ l := by
  rw [List.getD_eq_getElem _ _ h]
  exact List.getElem_mem h

theorem nodup_getD_inj {l : List Nat} (h : l.Nodup) {j1 j2 : Nat}
    (h1 : j1 < l.length) (h2 : j2 < l.length)
    (he : l.getD j1 0 = l.getD j2 0) : j1 = j2 := by
  rw [List.getD_eq_getElem _ _ h1, List.getD_eq_getElem _ _ h2] at he
  exact (h.getElem_inj_iff).mp he

theorem pyCeilDiv_le {p m : Nat} (hm : 1 ≤ m) : pyCeilDiv p m ≤ p := by
  unfold pyCeilDiv
  calc (p + m - 1) / m ≤ (m * p + (m - 1)) / m := by
        apply Nat.div_le_div_right
        have := Nat.le_mul_of_pos_left p hm
        omega
    _ = p + (m - 1) / m := Nat.mul_add_div hm p (m - 1)
    _ = p := by rw [Nat.div_eq_of_lt (by omega)]; omega

theorem pyCeilDiv_one (p : Nat) : pyCeilDiv p 1 = p := by
  unfold pyCeilDiv
  omega

/-! ### Characterization of the inner (class) loop -/

theorem innerFold_succ (s : Sampler) (whl : List (List Nat)) (n k : Nat)
    (st0 : ScatterState) (m : Nat) :
    innerFold s whl n k st0 (m + 1) =
      classStep s whl n k (innerFold s whl n k st0 m) m := by
  unfold innerFold
  rw [List.range_succ, List.foldl_append, List.foldl_cons, List.foldl_nil]

theorem innerFold_spec (s : Sampler) (whl : List (List Nat)) (n k t : Nat)
    (zb : Block) (avail : List (List Nat)) (m : Nat) (hm : m ≤ avail.length) :
    (innerFold s whl n k ⟨t, zb, avail⟩ m).t = t + m ∧
    (innerFold s whl n k ⟨t, zb, avail⟩ m).avail.length = avail.length ∧
    (∀ j, (innerFold s whl n k ⟨t, zb, avail⟩ m).avail.getD j [] =
      if j < m then drawPool s (t + j) (n - k) (avail.getD j [])
      else avail.getD j []) ∧
    (innerFold s whl n k ⟨t, zb, avail⟩ m).block.shape = zb.shape ∧
    (innerFold s whl n k ⟨t, zb, avail⟩ m).block.dtype = zb.dtype ∧
    (innerFold s whl n k ⟨t, zb, avail⟩ m).block.data =
      dataFold s whl n k t avail zb.data m := by
  induction m with
  | zero =>
    refine ⟨rfl, rfl, fun j => by simp [innerFold], rfl, rfl, rfl⟩
  | succ m ih =>
    obtain ⟨ht, hlen, hgetD, hsh, hdt, hdata⟩ :=
      ih (Nat.le_of_succ_le hm)
    rw [innerFold_succ]
    set Fm := innerFold s whl n k ⟨t, zb, avail⟩ m with hFm
    have havm : Fm.avail.getD m [] = avail.getD m [] := by
      rw [hgetD m, if_neg (Nat.lt_irrefl m)]
    refine ⟨?_, ?_, ?_, ?_, ?_, ?_⟩
    · show Fm.t + 1 = t + (m + 1)
      omega
    · show (Fm.avail.set m _).length = avail.length
      rw [List.length_set, hlen]
    · intro j
      show (Fm.avail.set m _).getD j [] = _
      rw [list_getD_set]
      by_cases hjm : m = j
      · subst hjm
        rw [if_pos ⟨rfl, by omega⟩, if_pos (Nat.lt_succ_self m)]
        rw [havm, ht]
        rfl
      · rw [if_neg (fun h => hjm h.1), hgetD j]
        by_cases hj : j < m
        · rw [if_pos hj, if_pos (Nat.lt_succ_of_lt hj)]
        · rw [if_neg hj, if_neg (by omega)]
    · show Fm.block.shape = zb.shape
      exact hsh
    · show Fm.block.dtype = zb.dtype
      exact hdt
    · show setPositions Fm.block.data _ _ = dataFold s whl n k t avail zb.data (m + 1)
      unfold dataFold
      rw [List.range_succ, List.foldl_append, List.foldl_cons, List.foldl_nil]
      show setPositions Fm.block.data
          ((s Fm.t (Fm.avail.getD m [])
              (pyCeilDiv (Fm.avail.getD m []).length (n - k))).map
            (fun j => (whl.getD m []).getD j 0)) ((m : Int) + 1) = _
      rw [havm, ht, hdata]
      rfl

/-! ### Characterization of the outer (round) loop -/

theorem block_eq_of_parts {b1 b2 : Block} (h1 : b1.shape = b2.shape)
    (h2 : b1.dtype = b2.dtype) (h3 : b1.data = b2.data) : b1 = b2 := by
  cases b1
  cases b2
  simp_all

theorem whList_length (b : Block) (K : Nat) : (whList b K).length = K := by
  simp [whList]

theorem whList_getD (b : Block) (K : Nat) {i : Nat} (hi : i < K) :
    (whList b K).getD i [] = npWhere b ((i : Int) + 1) := by
  have hlen : i < (whList b K).length := by rw [whList_length]; exact hi
  rw [List.getD_eq_getElem _ _ hlen]
  simp [whList]

theorem outerFold_succ (s : Sampler) (t0 : Nat) (lb : Block) (K n m : Nat) :
    outerFold s t0 lb K n (m + 1) =
      roundStep s lb (whList lb K) K n (outerFold s t0 lb K n m) m := by
  unfold outerFold
  rw [List.range_succ, List.foldl_append, List.foldl_cons, List.foldl_nil]

theorem outerFold_spec (s : Sampler) (t0 : Nat) (lb : Block) (K n m : Nat) :
    (outerFold s t0 lb K n m).2.1 = t0 + m * K ∧
    (outerFold s t0 lb K n m).2.2.length = K ∧
    (∀ i, i < K → (outerFold s t0 lb K n m).2.2.getD i [] =
        poolSeq s t0 K n (whList lb K) i m) ∧
    (outerFold s t0 lb K n m).1.length = m ∧
    (∀ k, k < m → (outerFold s t0 lb K n m).1.getD k default =
        ⟨lb.shape, lb.dtype,
          roundData s t0 K n (whList lb K) lb.shape.prod k⟩) := by
  induction m with
  | zero =>
    refine ⟨by simp [outerFold], ?_, ?_, rfl,
      fun k hk => absurd hk (Nat.not_lt_zero k)⟩
    · show ((whList lb K).map (fun wh => List.range wh.length)).length = K
      rw [List.length_map, whList_length]
    · intro i hi
      have hlen : i < ((whList lb K).map
          (fun wh => List.range wh.length)).length := by
        rw [List.length_map, whList_length]; exact hi
      show ((whList lb K).map (fun wh => List.range wh.length)).getD i [] =
        initPool (whList lb K) i
      rw [List.getD_eq_getElem _ _ hlen, List.getElem_map]
      unfold initPool
      rw [List.getD_eq_getElem _ _ (by rw [whList_length]; exact hi)]
  | succ m ih =>
    obtain ⟨ht, hlen, hpool, hblen, hblocks⟩ := ih
    rw [outerFold_succ]
    obtain ⟨ist, ilen, igetD, ish, idt, idata⟩ :=
      innerFold_spec s (whList lb K) n m (outerFold s t0 lb K n m).2.1
        (npZeros lb) (outerFold s t0 lb K n m).2.2 K (by rw [hlen])
    refine ⟨?_, ?_, ?_, ?_, ?_⟩
    · show (innerFold s (whList lb K) n m _ K).t = t0 + (m + 1) * K
      rw [ist, ht]
      ring
    · show (innerFold s (whList lb K) n m _ K).avail.length = K
      rw [ilen, hlen]
    · intro i hi
      show (innerFold s (whList lb K) n m _ K).avail.getD i [] = _
      rw [igetD i, if_pos hi, ht, hpool i hi]
      rfl
    · show ((outerFold s t0 lb K n m).1 ++ _).length = m + 1
      rw [List.length_append, hblen]
      rfl
    · intro k hk
      rcases Nat.lt_or_ge k m with hkm | hkm
      · show ((outerFold s t0 lb K n m).1 ++ _).getD k default = _
        rw [List.getD_append _ _ _ _ (by rw [hblen]; exact hkm)]
        exact hblocks k hkm
      · have hkeq : k = m := by omega
        subst hkeq
        show ((outerFold s t0 lb K n k).1 ++
          [(innerFold s (whList lb K) n k _ K).block]).getD k default = _
        rw [List.getD_append_right _ _ _ _ (by rw [hblen])]
        rw [hblen, Nat.sub_self]
        show (innerFold s (whList lb K) n k _ K).block = _
        apply block_eq_of_parts
        · rw [ish]
          rfl
        · rw [idt]
          rfl
        · rw [idata]
          show dataFold s (whList lb K) n k (outerFold s t0 lb K n k).2.1
            (outerFold s t0 lb K n k).2.2 (List.replicate lb.shape.prod 0) K =
            roundData s t0 K n (whList lb K) lb.shape.prod k
          unfold dataFold roundData
          apply foldl_congr_mem
          intro i hi acc
          have hiK : i < K := List.mem_range.mp hi
          congr 1
          unfold writesFrom posWrites chosenIdx
          rw [ht, hpool i hiK]

/-! ### Pool analysis -/

theorem poolSeq_sublist (s : Sampler) (t0 K n : Nat) (whl : List (List Nat))
    (i k : Nat) :
    (poolSeq s t0 K n whl i (k + 1)).Sublist (poolSeq s t0 K n whl i k) := by
  show (List.filter _ _).Sublist _
  exact List.filter_sublist _

theorem poolSeq_sublist_init (s : Sampler) (t0 K n : Nat)
    (whl : List (List Nat)) (i k : Nat) :
    (poolSeq s t0 K n whl i k).Sublist (initPool whl i) := by
  induction k with
  | zero => exact List.Sublist.refl _
  | succ k ih => exact (poolSeq_sublist s t0 K n whl i k).trans ih

theorem poolSeq_nodup (s : Sampler) (t0 K n : Nat) (whl : List (List Nat))
    (i k : Nat) : (poolSeq s t0 K n whl i k).Nodup :=
  (poolSeq_sublist_init s t0 K n whl i k).nodup (List.nodup_range _)

theorem chosenIdx_spec {s : Sampler} (hs : ValidSampler s) (t0 K n : Nat)
    (whl : List (List Nat)) (i : Nat) {k : Nat} (hk : k < n) :
    (chosenIdx s t0 K n whl i k).length =
      pyCeilDiv (poolSeq s t0 K n whl i k).length (n - k) ∧
    (chosenIdx s t0 K n whl i k).Nodup ∧
    ∀ x ∈ chosenIdx s t0 K n whl i k, x ∈ poolSeq s t0 K n whl i k :=
  hs _ _ _ (poolSeq_nodup s t0 K n whl i k) (pyCeilDiv_le (by omega))

theorem mem_poolSeq_succ (s : Sampler) (t0 K n : Nat) (whl : List (List Nat))
    (i k x : Nat) :
    x ∈ poolSeq s t0 K n whl i (k + 1) ↔
      x ∈ poolSeq s t0 K n whl i k ∧ x ∉ chosenIdx s t0 K n whl i k := by
  show x ∈ List.filter _ _ ↔ _
  rw [List.mem_filter]
  unfold chosenIdx
  simp

theorem poolSeq_length_succ {s : Sampler} (hs : ValidSampler s) (t0 K n : Nat)
    (whl : List (List Nat)) (i : Nat) {k : Nat} (hk : k < n) :
    (poolSeq s t0 K n whl i (k + 1)).length =
      (poolSeq s t0 K n whl i k).length - (chosenIdx s t0 K n whl i k).length := by
  obtain ⟨hlen, hnd, hmem⟩ := chosenIdx_spec hs t0 K n whl i hk
  show (List.filter _ _).length = _
  exact length_filter_not_mem (poolSeq_nodup s t0 K n whl i k) hnd hmem

theorem poolSeq_last_empty {s : Sampler} (hs : ValidSampler s) (t0 K n : Nat)
    (whl : List (List Nat)) (i : Nat) {k : Nat} (hk : k < n)
    (h1 : n - k = 1) : poolSeq s t0 K n whl i (k + 1) = [] := by
  obtain ⟨hlen, hnd, hmem⟩ := chosenIdx_spec hs t0 K n whl i hk
  rw [h1, pyCeilDiv_one] at hlen
  have hperm : List.Perm (chosenIdx s t0 K n whl i k)
      (poolSeq s t0 K n whl i k) :=
    (List.subperm_of_subset hnd hmem).perm_of_length_le (Nat.le_of_eq hlen.symm)
  show List.filter _ _ = []
  rw [List.filter_eq_nil_iff]
  intro a ha
  have hmem2 : a ∈ chosenIdx s t0 K n whl i k := hperm.mem_iff.mpr ha
  simpa [chosenIdx] using hmem2

theorem poolSeq_terminal {s : Sampler} (hs : ValidSampler s) (t0 K n : Nat)
    (whl : List (List Nat)) (i : Nat) (hn : 1 ≤ n) :
    poolSeq s t0 K n whl i n = [] := by
  have h := poolSeq_last_empty hs t0 K n whl i
    (k := n - 1) (by omega) (by omega)
  rwa [show n - 1 + 1 = n by omega] at h

theorem poolSeq_subset_of_le (s : Sampler) (t0 K n : Nat)
    (whl : List (List Nat)) (i : Nat) {k1 k2 : Nat} (h : k1 ≤ k2) :
    poolSeq s t0 K n whl i k2 ⊆ poolSeq s t0 K n whl i k1 := by
  induction k2, h using Nat.le_induction with
  | base => exact fun x hx => hx
  | succ k2 h ih =>
    exact fun x hx => ih ((poolSeq_sublist s t0 K n whl i k2).subset hx)

theorem chosenIdx_disjoint {s : Sampler} (hs : ValidSampler s) (t0 K n : Nat)
    (whl : List (List Nat)) (i : Nat) {k1 k2 x : Nat} (h12 : k1 < k2)
    (hk2 : k2 < n) (hx : x ∈ chosenIdx s t0 K n whl i k2) :
    x ∉ chosenIdx s t0 K n whl i k1 := by
  have h2 : x ∈ poolSeq s t0 K n whl i k2 :=
    (chosenIdx_spec hs t0 K n whl i hk2).2.2 x hx
  have h3 : x ∈ poolSeq s t0 K n whl i (k1 + 1) :=
    poolSeq_subset_of_le s t0 K n whl i (by omega) h2
  exact ((mem_poolSeq_succ s t0 K n whl i k1 x).mp h3).2

theorem mem_poolSeq_of_not_chosen (s : Sampler) (t0 K n : Nat)
    (whl : List (List Nat)) (i : Nat) {x : Nat} (hx : x ∈ initPool whl i)
    (k : Nat) (h : ∀ k', k' < k → x ∉ chosenIdx s t0 K n whl i k') :
    x ∈ poolSeq s t0 K n whl i k := by
  induction k with
  | zero => exact hx
  | succ k ih =>
    rw [mem_poolSeq_succ]
    exact ⟨ih (fun k' hk' => h k' (by omega)), h k (by omega)⟩

theorem chosenIdx_cover {s : Sampler} (hs : ValidSampler s) (t0 K n : Nat)
    (whl : List (List Nat)) (i : Nat) (hn : 1 ≤ n) (x : Nat) :
    x ∈ initPool whl i ↔ ∃ k, k < n ∧ x ∈ chosenIdx s t0 K n whl i k := by
  constructor
  · intro hx
    by_contra hne
    push_neg at hne
    have h2 : x ∈ poolSeq s t0 K n whl i n :=
      mem_poolSeq_of_not_chosen s t0 K n whl i hx n
        (fun k' hk' => hne k' hk')
    rw [poolSeq_terminal hs t0 K n whl i hn] at h2
    exact absurd h2 (List.not_mem_nil x)
  · rintro ⟨k, hk, hx⟩
    have h2 : x ∈ poolSeq s t0 K n whl i k :=
      (chosenIdx_spec hs t0 K n whl i hk).2.2 x hx
    exact (poolSeq_sublist_init s t0 K n whl i k).subset h2

theorem chosenIdx_lt_length {s : Sampler} (hs : ValidSampler s) (t0 K n : Nat)
    (whl : List (List Nat)) (i : Nat) {k j : Nat} (hk : k < n)
    (hj : j ∈ chosenIdx s t0 K n whl i k) : j < (whl.getD i []).length := by
  have h2 : j ∈ poolSeq s t0 K n whl i k :=
    (chosenIdx_spec hs t0 K n whl i hk).2.2 j hj
  have h3 : j ∈ initPool whl i :=
    (poolSeq_sublist_init s t0 K n whl i k).subset h2
  simpa [initPool] using h3

/-! ### From index pools to block positions -/

theorem mem_npWhere (b : Block) (v : Int) (p : Nat) :
    p ∈ npWhere b v ↔ p < b.data.length ∧ b.data.getD p 0 = v := by
  unfold npWhere
  rw [List.mem_filter, List.mem_range]
  simp

theorem npWhere_nodup (b : Block) (v : Int) : (npWhere b v).Nodup :=
  (List.nodup_range _).filter _

theorem getD_replicate_zero (P p : Nat) :
    (List.replicate P (0 : Int)).getD p 0 = 0 := by
  rcases Nat.lt_or_ge p P with h | h
  · rw [List.getD_eq_getElem _ _ (by simpa using h), List.getElem_replicate]
  · rw [List.getD_eq_default _ _ (by simpa using h)]

theorem foldl_setPositions_length (l : List Nat) (w : Nat → List Nat)
    (v : Nat → Int) (d0 : List Int) :
    (l.foldl (fun d i => setPositions d (w i) (v i)) d0).length = d0.length := by
  induction l generalizing d0 with
  | nil => rfl
  | cons x xs ih => rw [List.foldl_cons, ih, setPositions_length]

theorem foldl_setPositions_getD_not_mem (l : List Nat) (w : Nat → List Nat)
    (v : Nat → Int) (d0 : List Int) (p : Nat) (h : ∀ i ∈ l, p ∉ w i) :
    (l.foldl (fun d i => setPositions d (w i) (v i)) d0).getD p 0 =
      d0.getD p 0 := by
  induction l generalizing d0 with
  | nil => rfl
  | cons x xs ih =>
    rw [List.foldl_cons, ih _ (fun i hi => h i (List.mem_cons_of_mem x hi)),
      getD_setPositions, if_neg]
    intro hc
    exact h x (List.mem_cons_self x xs) hc.1

theorem foldl_setPositions_getD_mem (l : List Nat) (w : Nat → List Nat)
    (v : Nat → Int) (d0 : List Int) (p i0 : Nat) (hi0 : i0 ∈ l)
    (hp : p ∈ w i0) (hplen : p < d0.length)
    (hothers : ∀ i ∈ l, i ≠ i0 → p ∉ w i) :
    (l.foldl (fun d i => setPositions d (w i) (v i)) d0).getD p 0 = v i0 := by
  induction l generalizing d0 with
  | nil => cases hi0
  | cons x xs ih =>
    rw [List.foldl_cons]
    by_cases hmem : i0 ∈ xs
    · exact ih _ hmem (by rw [setPositions_length]; exact hplen)
        (fun i hi => hothers i (List.mem_cons_of_mem x hi))
    · have hx : i0 = x := by
        rcases List.mem_cons.mp hi0 with h | h
        · exact h
        · exact absurd h hmem
      rw [foldl_setPositions_getD_not_mem xs w v _ p ?_]
      · rw [getD_setPositions, if_pos ⟨hx ▸ hp, hplen⟩, hx]
      · intro i hi hc
        exact hothers i (List.mem_cons_of_mem x hi)
          (fun he => hmem (he ▸ hi)) hc

theorem posWrites_subset {s : Sampler} (hs : ValidSampler s) (t0 K n : Nat)
    (whl : List (List Nat)) (i : Nat) {k : Nat} (hk : k < n) :
    posWrites s t0 K n whl i k ⊆ whl.getD i [] := by
  intro p hp
  obtain ⟨j, hj, hje⟩ := List.mem_map.mp hp
  have hlt : j < (whl.getD i []).length := chosenIdx_lt_length hs t0 K n whl i hk hj
  rw [← hje]
  exact getD_mem hlt 0

theorem posWrites_disjoint_rounds {s : Sampler} (hs : ValidSampler s)
    (t0 K n : Nat) (whl : List (List Nat)) (i : Nat)
    (hw : (whl.getD i []).Nodup) {k1 k2 p : Nat} (hk1 : k1 < n) (hk2 : k2 < n)
    (hne : k1 ≠ k2) (hp1 : p ∈ posWrites s t0 K n whl i k1) :
    p ∉ posWrites s t0 K n whl i k2 := by
  intro hp2
  obtain ⟨j1, hj1, hje1⟩ := List.mem_map.mp hp1
  obtain ⟨j2, hj2, hje2⟩ := List.mem_map.mp hp2
  have hl1 : j1 < (whl.getD i []).length :=
    chosenIdx_lt_length hs t0 K n whl i hk1 hj1
  have hl2 : j2 < (whl.getD i []).length :=
    chosenIdx_lt_length hs t0 K n whl i hk2 hj2
  have hj12 : j1 = j2 := nodup_getD_inj hw hl1 hl2 (hje1.trans hje2.symm)
  subst hj12
  rcases Nat.lt_or_ge k1 k2 with h12 | h12
  · exact chosenIdx_disjoint hs t0 K n whl i h12 hk2 hj2 hj1
  · have h21 : k2 < k1 := by omega
    exact chosenIdx_disjoint hs t0 K n whl i h21 hk1 hj1 hj2

theorem posWrites_cover {s : Sampler} (hs : ValidSampler s) (t0 K n : Nat)
    (whl : List (List Nat)) (i : Nat) (hn : 1 ≤ n) (p : Nat) :
    p ∈ whl.getD i [] ↔ ∃ k, k < n ∧ p ∈ posWrites s t0 K n whl i k := by
  constructor
  · intro hp
    obtain ⟨j, hj, hje⟩ := List.mem_iff_getElem.mp hp
    have hinit : j ∈ initPool whl i := by simpa [initPool] using hj
    obtain ⟨k, hk, hck⟩ :=
      (chosenIdx_cover hs t0 K n whl i hn j).mp hinit
    refine ⟨k, hk, List.mem_map.mpr ⟨j, hck, ?_⟩⟩
    rw [List.getD_eq_getElem _ _ hj]
    exact hje
  · rintro ⟨k, hk, hp⟩
    exact posWrites_subset hs t0 K n whl i hk hp

theorem posWrites_cross {s : Sampler} (hs : ValidSampler s) (t0 K n : Nat)
    (b : Block) {i1 i2 : Nat} (hi1 : i1 < K) (hi2 : i2 < K) (hne : i2 ≠ i1)
    {k1 k2 p : Nat} (hk1 : k1 < n) (hk2 : k2 < n)
    (hp1 : p ∈ posWrites s t0 K n (whList b K) i1 k1) :
    p ∉ posWrites s t0 K n (whList b K) i2 k2 := by
  intro hp2
  have h1 := posWrites_subset hs t0 K n (whList b K) i1 hk1 hp1
  have h2 := posWrites_subset hs t0 K n (whList b K) i2 hk2 hp2
  rw [whList_getD b K hi1] at h1
  rw [whList_getD b K hi2] at h2
  have hv1 := (mem_npWhere b _ p).mp h1
  have hv2 := (mem_npWhere b _ p).mp h2
  have hei : (i1 : Int) + 1 = (i2 : Int) + 1 := by rw [← hv1.2, hv2.2]
  have : i1 = i2 := by omega
  exact hne this.symm

/-! ### The data of one output round -/

theorem roundData_length (s : Sampler) (t0 K n : Nat) (whl : List (List Nat))
    (P k : Nat) : (roundData s t0 K n whl P k).length = P := by
  unfold roundData
  exact (foldl_setPositions_length (List.range K)
    (fun i => posWrites s t0 K n whl i k) (fun i => (i : Int) + 1)
    (List.replicate P 0)).trans (List.length_replicate P 0)

theorem roundData_getD_zero (s : Sampler) (t0 K n : Nat)
    (whl : List (List Nat)) (P k : Nat) {p : Nat}
    (h : ∀ i, i < K → p ∉ posWrites s t0 K n whl i k) :
    (roundData s t0 K n whl P k).getD p 0 = 0 := by
  unfold roundData
  exact (foldl_setPositions_getD_not_mem (List.range K)
    (fun i => posWrites s t0 K n whl i k) (fun i => (i : Int) + 1)
    (List.replicate P 0) p
    (fun i hi => h i (List.mem_range.mp hi))).trans (getD_replicate_zero P p)

theorem roundData_getD_write (s : Sampler) (t0 K n : Nat)
    (whl : List (List Nat)) (P k : Nat) {i0 p : Nat} (hi0 : i0 < K)
    (hp : p ∈ posWrites s t0 K n whl i0 k) (hplen : p < P)
    (hothers : ∀ i, i < K → i ≠ i0 → p ∉ posWrites s t0 K n whl i k) :
    (roundData s t0 K n whl P k).getD p 0 = (i0 : Int) + 1 := by
  unfold roundData
  exact foldl_setPositions_getD_mem (List.range K)
    (fun i => posWrites s t0 K n whl i k) (fun i => (i : Int) + 1)
    (List.replicate P 0) p i0 (List.mem_range.mpr hi0) hp
    (by simpa using hplen)
    (fun i hi => hothers i (List.mem_range.mp hi))

theorem roundData_getD_c {s : Sampler} (hs : ValidSampler s) (t0 K n : Nat)
    (b : Block) (hwf : b.data.length = b.shape.prod) {c : Nat} (hc1 : 1 ≤ c)
    (hcK : c ≤ K) {k : Nat} (hk : k < n) (p : Nat) :
    (roundData s t0 K n (whList b K) b.shape.prod k).getD p 0 = (c : Int) ↔
      p ∈ posWrites s t0 K n (whList b K) (c - 1) k := by
  have hcast : ((c - 1 : Nat) : Int) + 1 = (c : Int) := by omega
  constructor
  · intro h
    by_cases hex : ∃ i, i < K ∧ p ∈ posWrites s t0 K n (whList b K) i k
    · obtain ⟨i, hi, hpi⟩ := hex
      have hplen : p < b.shape.prod := by
        have hsub := posWrites_subset hs t0 K n (whList b K) i hk hpi
        rw [whList_getD b K hi] at hsub
        have := (mem_npWhere b _ p).mp hsub
        omega
      have hval := roundData_getD_write s t0 K n (whList b K) b.shape.prod k
        hi hpi hplen
        (fun i2 hi2 hne => posWrites_cross hs t0 K n b hi hi2 hne hk hk hpi)
      rw [h] at hval
      have : i = c - 1 := by omega
      exact this ▸ hpi
    · push_neg at hex
      have hval := roundData_getD_zero s t0 K n (whList b K) b.shape.prod k hex
      rw [h] at hval
      omega
  · intro h
    have hi0 : c - 1 < K := by omega
    have hplen : p < b.shape.prod := by
      have hsub := posWrites_subset hs t0 K n (whList b K) (c - 1) hk h
      rw [whList_getD b K hi0] at hsub
      have := (mem_npWhere b _ p).mp hsub
      omega
    have hval := roundData_getD_write s t0 K n (whList b K) b.shape.prod k
      hi0 h hplen
      (fun i2 hi2 hne => posWrites_cross hs t0 K n b hi0 hi2 hne hk hk h)
    rw [hval, hcast]

/-! ### Bridges between the loop characterization and the source functions -/

theorem scatterRun_eq_outerFold (s : Sampler) (t0 : Nat) (b : Block)
    (K n : Nat) : scatterRun s t0 b K n = outerFold s t0 b K n n := rfl

theorem availAfter_eq_outerFold (s : Sampler) (t0 : Nat) (b : Block)
    (K n m : Nat) : availAfter s t0 b K n m = (outerFold s t0 b K n m).2.2 := rfl

theorem single_block_length (s : Sampler) (t0 : Nat) (b : Block) (K n : Nat) :
    (scatter_labels_single_block s t0 b K n).length = n :=
  (outerFold_spec s t0 b K n n).2.2.2.1

theorem single_block_getD (s : Sampler) (t0 : Nat) (b : Block) (K n : Nat)
    {k : Nat} (hk : k < n) :
    (scatter_labels_single_block s t0 b K n).getD k default =
      ⟨b.shape, b.dtype, roundData s t0 K n (whList b K) b.shape.prod k⟩ :=
  (outerFold_spec s t0 b K n n).2.2.2.2 k hk

theorem mem_npWhere_output {s : Sampler} (hs : ValidSampler s) (t0 : Nat)
    (b : Block) (K n : Nat) (hwf : b.data.length = b.shape.prod) {c : Nat}
    (hc1 : 1 ≤ c) (hcK : c ≤ K) {k : Nat} (hk : k < n) (p : Nat) :
    p ∈ npWhere ((scatter_labels_single_block s t0 b K n).getD k default)
        (c : Int) ↔
      p ∈ posWrites s t0 K n (whList b K) (c - 1) k := by
  rw [single_block_getD s t0 b K n hk, mem_npWhere]
  show p < (roundData s t0 K n (whList b K) b.shape.prod k).length ∧ _ ↔ _
  rw [roundData_length]
  constructor
  · intro h
    exact (roundData_getD_c hs t0 K n b hwf hc1 hcK hk p).mp h.2
  · intro h
    refine ⟨?_, (roundData_getD_c hs t0 K n b hwf hc1 hcK hk p).mpr h⟩
    have hsub := posWrites_subset hs t0 K n (whList b K) (c - 1) hk h
    rw [whList_getD b K (by omega)] at hsub
    have := (mem_npWhere b _ p).mp hsub
    omega

theorem takeSampler_valid : ValidSampler takeSampler := by
  intro t pool m hnd hm
  refine ⟨?_, ?_, ?_⟩
  · show (pool.take m).length = m
    rw [List.length_take]
    omega
  · exact (List.take_sublist m pool).nodup hnd
  · intro x hx
    exact (List.take_sublist m pool).subset hx

/-! ### The claims -/

/-- C6: for every input block and every split count, every output block of the
single-block partitioner has the same shape and the same dtype as the input
block, and there are exactly `n` output blocks. -/
theorem C6_shape_dtype_preserved (s : Sampler) (t0 : Nat) (b : Block)
    (K n : Nat) :
    (scatter_labels_single_block s t0 b K n).length = n ∧
    ∀ ob ∈ scatter_labels_single_block s t0 b K n,
      ob.shape = b.shape ∧ ob.dtype = b.dtype := by
  refine ⟨single_block_length s t0 b K n, ?_⟩
  intro ob hob
  obtain ⟨k, hk, he⟩ := List.mem_iff_getElem.mp hob
  have hkn : k < n := by
    have hl := single_block_length s t0 b K n
    omega
  have hgd := single_block_getD s t0 b K n hkn
  rw [List.getD_eq_getElem _ _ hk, he] at hgd
  rw [hgd]
  exact ⟨rfl, rfl⟩

/-- Witness for C6 at a concrete input. -/
theorem C6_shape_dtype_preserved_witness :
    ((scatter_labels_single_block takeSampler 0 blkT 2 2).getD 0 default).shape
        = blkT.shape ∧
    ((scatter_labels_single_block takeSampler 0 blkT 2 2).getD 0
        default).dtype = blkT.dtype :=
  (C6_shape_dtype_preserved takeSampler 0 blkT 2 2).2
    ((scatter_labels_single_block takeSampler 0 blkT 2 2).getD 0 default)
    (by decide)

/-- C10: a voxel whose input value lies outside `1..label_count` is assigned
to no round: it reads 0 in every output block of the single-block scatter. -/
theorem C10_out_of_range_dropped (s : Sampler) (t0 : Nat) (b : Block)
    (K n : Nat) (hs : ValidSampler s) (p : Nat)
    (hout : ∀ c : Nat, 1 ≤ c → c ≤ K → b.data.getD p 0 ≠ (c : Int)) :
    ∀ k, k < n →
      ((scatter_labels_single_block s t0 b K n).getD k
          default).data.getD p 0 = 0 := by
  intro k hk
  rw [single_block_getD s t0 b K n hk]
  show (roundData s t0 K n (whList b K) b.shape.prod k).getD p 0 = 0
  apply roundData_getD_zero
  intro i hi hp
  have hsub := posWrites_subset hs t0 K n (whList b K) i hk hp
  rw [whList_getD b K hi] at hsub
  have hv := (mem_npWhere b _ p).mp hsub
  exact hout (i + 1) (by omega) (by omega) (by push_cast; exact hv.2)

/-- Witness for C10 at a concrete input: `blkX` holds value 5 at position 0
while `label_count = 1`. -/
theorem C10_out_of_range_dropped_witness :
    ValidSampler takeSampler ∧
    (∀ c : Nat, 1 ≤ c → c ≤ 1 → blkX.data.getD 0 0 ≠ (c : Int)) ∧
    (∀ k, k < 3 →
      ((scatter_labels_single_block takeSampler 0 blkX 1 3).getD k
          default).data.getD 0 0 = 0) := by
  have hout : ∀ c : Nat, 1 ≤ c → c ≤ 1 → blkX.data.getD 0 0 ≠ (c : Int) := by
    intro c h1 h2
    have hc : c = 1 := by omega
    subst hc
    decide
  exact ⟨takeSampler_valid, hout,
    C10_out_of_range_dropped takeSampler 0 blkX 1 3 takeSampler_valid 0 hout⟩

/-- C8: the scatter is deterministic in the externally seeded draw sequence:
two samplers realizing the same draw sequence produce identical outputs on the
same blocks, class count and split count. -/
theorem C8_deterministic (s1 s2 : Sampler) (t0 : Nat) (blocks : List Block)
    (K n : Nat) (h : ∀ t pool m, s1 t pool m = s2 t pool m) :
    scatter_labels s1 t0 blocks K n = scatter_labels s2 t0 blocks K n := by
  have hse : s1 = s2 :=
    funext (fun t => funext (fun pool => funext (fun m => h t pool m)))
  rw [hse]

/-- Witness for C8 at a concrete input. -/
theorem C8_deterministic_witness :
    (∀ t pool m, takeSampler t pool m = takeSampler t pool m) ∧
    scatter_labels takeSampler 0 [blkT] 2 2 =
      scatter_labels takeSampler 0 [blkT] 2 2 :=
  ⟨fun _ _ _ => rfl,
    C8_deterministic takeSampler takeSampler 0 [blkT] 2 2 (fun _ _ _ => rfl)⟩

/-- C5: scattering a label block into a single round returns exactly the
original block (every label lands in round 0). -/
theorem C5_single_round_identity (s : Sampler) (t0 : Nat) (b : Block)
    (K : Nat) (hs : ValidSampler s) (hwf : b.data.length = b.shape.prod)
    (hvals : ∀ v ∈ b.data, 0 ≤ v ∧ v ≤ (K : Int)) :
    scatter_labels_single_block s t0 b K 1 = [b] := by
  have hlen := single_block_length s t0 b K 1
  have hgd := single_block_getD s t0 b K 1 (k := 0) (by omega)
  have hdata : roundData s t0 K 1 (whList b K) b.shape.prod 0 = b.data := by
    apply List.ext_getElem
    · rw [roundData_length]
      omega
    · intro p h1 h2
      rw [← List.getD_eq_getElem _ 0 h1, ← List.getD_eq_getElem _ 0 h2]
      have hv : 0 ≤ b.data.getD p 0 ∧ b.data.getD p 0 ≤ (K : Int) := by
        rw [List.getD_eq_getElem _ _ h2]
        exact hvals _ (List.getElem_mem h2)
      by_cases hc : b.data.getD p 0 = 0
      · rw [hc]
        apply roundData_getD_zero
        intro i hi hp
        have hsub := posWrites_subset hs t0 K 1 (whList b K) i
          (k := 0) (by omega) hp
        rw [whList_getD b K hi] at hsub
        have hmem := (mem_npWhere b _ p).mp hsub
        rw [hc] at hmem
        omega
      · have hge : 1 ≤ b.data.getD p 0 := by omega
        obtain ⟨c, hcv⟩ : ∃ c : Nat, (c : Int) = b.data.getD p 0 :=
          ⟨(b.data.getD p 0).toNat, Int.toNat_of_nonneg hv.1⟩
        have hc1 : 1 ≤ c := by omega
        have hcK : c ≤ K := by omega
        have hpw : p ∈ (whList b K).getD (c - 1) [] := by
          rw [whList_getD b K (by omega)]
          rw [mem_npWhere]
          refine ⟨h2, ?_⟩
          rw [← hcv]
          omega
        obtain ⟨k, hk, hpk⟩ :=
          (posWrites_cover hs t0 K 1 (whList b K) (c - 1) (by omega) p).mp hpw
        have hk0 : k = 0 := by omega
        subst hk0
        rw [(roundData_getD_c hs t0 K 1 b hwf hc1 hcK (by omega) p).mpr hpk]
        exact hcv
  rw [hdata] at hgd
  rcases hL : scatter_labels_single_block s t0 b K 1 with _ | ⟨x, _ | ⟨y, u⟩⟩
  · rw [hL] at hlen
    exact absurd hlen (by simp)
  · rw [hL] at hgd
    simp only [List.getD_cons_zero] at hgd
    rw [hgd]
  · rw [hL] at hlen
    simp at hlen

/-- Witness for C5 at a concrete input. -/
theorem C5_single_round_identity_witness :
    ValidSampler takeSampler ∧ blkT.data.length = blkT.shape.prod ∧
    (∀ v ∈ blkT.data, 0 ≤ v ∧ v ≤ (2 : Int)) ∧
    scatter_labels_single_block takeSampler 0 blkT 2 1 = [blkT] :=
  ⟨takeSampler_valid, rfl, by decide,
    C5_single_round_identity takeSampler 0 blkT 2 takeSampler_valid rfl
      (by decide)⟩

/-- C1: for every input label block, every class `c` in `1..label_count` and
every split count `n ≥ 1`, the class-`c` position sets of the `n` output
blocks are pairwise disjoint and their union is exactly the class-`c`
position set of the original block: no labeled voxel is duplicated or
dropped. -/
theorem C1_disjoint_conservation (s : Sampler) (t0 : Nat) (b : Block)
    (K n c : Nat) (hs : ValidSampler s) (hwf : b.data.length = b.shape.prod)
    (hc1 : 1 ≤ c) (hcK : c ≤ K) (hn : 1 ≤ n) :
    (∀ k1 k2, k1 < n → k2 < n → k1 ≠ k2 → ∀ p,
      p ∈ npWhere ((scatter_labels_single_block s t0 b K n).getD k1 default)
          (c : Int) →
      p ∉ npWhere ((scatter_labels_single_block s t0 b K n).getD k2 default)
          (c : Int)) ∧
    (∀ p, (∃ k, k < n ∧
        p ∈ npWhere ((scatter_labels_single_block s t0 b K n).getD k default)
          (c : Int)) ↔
      p ∈ npWhere b (c : Int)) := by
  have hcast : ((c - 1 : Nat) : Int) + 1 = (c : Int) := by omega
  constructor
  · intro k1 k2 hk1 hk2 hne p hp1 hp2
    rw [mem_npWhere_output hs t0 b K n hwf hc1 hcK hk1 p] at hp1
    rw [mem_npWhere_output hs t0 b K n hwf hc1 hcK hk2 p] at hp2
    have hw : ((whList b K).getD (c - 1) []).Nodup := by
      rw [whList_getD b K (by omega)]
      exact npWhere_nodup b _
    exact posWrites_disjoint_rounds hs t0 K n (whList b K) (c - 1) hw hk1 hk2
      hne hp1 hp2
  · intro p
    constructor
    · rintro ⟨k, hk, hp⟩
      rw [mem_npWhere_output hs t0 b K n hwf hc1 hcK hk p] at hp
      have hcov := (posWrites_cover hs t0 K n (whList b K) (c - 1) hn p).mpr
        ⟨k, hk, hp⟩
      rw [whList_getD b K (by omega), hcast] at hcov
      exact hcov
    · intro hp
      have h2 : p ∈ (whList b K).getD (c - 1) [] := by
        rw [whList_getD b K (by omega), hcast]
        exact hp
      obtain ⟨k, hk, hpk⟩ :=
        (posWrites_cover hs t0 K n (whList b K) (c - 1) hn p).mp h2
      exact ⟨k, hk, (mem_npWhere_output hs t0 b K n hwf hc1 hcK hk p).mpr hpk⟩

/-- Witness for C1 at a concrete input. -/
theorem C1_disjoint_conservation_witness :
    ValidSampler takeSampler ∧ blkT.data.length = blkT.shape.prod ∧
    (1 : Nat) ≤ 1 ∧ (1 : Nat) ≤ 2 ∧ (1 : Nat) ≤ 2 ∧
    ((∀ k1 k2, k1 < 2 → k2 < 2 → k1 ≠ k2 → ∀ p,
      p ∈ npWhere ((scatter_labels_single_block takeSampler 0 blkT 2 2).getD
          k1 default) ((1 : Nat) : Int) →
      p ∉ npWhere ((scatter_labels_single_block takeSampler 0 blkT 2 2).getD
          k2 default) ((1 : Nat) : Int)) ∧
    (∀ p, (∃ k, k < 2 ∧
        p ∈ npWhere ((scatter_labels_single_block takeSampler 0 blkT 2 2).getD
          k default) ((1 : Nat) : Int)) ↔
      p ∈ npWhere blkT ((1 : Nat) : Int))) :=
  ⟨takeSampler_valid, rfl, by decide, by decide, by decide,
    C1_disjoint_conservation takeSampler 0 blkT 2 2 1 takeSampler_valid rfl
      (by decide) (by decide) (by decide)⟩

/-- C3: with a valid sampler, draw `k` removes exactly
`ceil(|pool| / (n - k))` indices from each class pool (never more than the
pool holds), and after the `n`-th draw every class pool is exactly empty. -/
theorem C3_pool_schedule (s : Sampler) (t0 : Nat) (b : Block) (K n : Nat)
    (hs : ValidSampler s) (hn : 1 ≤ n) :
    (∀ i k, i < K → k < n →
      pyCeilDiv ((availAfter s t0 b K n k).getD i []).length (n - k) ≤
        ((availAfter s t0 b K n k).getD i []).length ∧
      ((availAfter s t0 b K n (k + 1)).getD i []).length =
        ((availAfter s t0 b K n k).getD i []).length -
          pyCeilDiv ((availAfter s t0 b K n k).getD i []).length (n - k)) ∧
    (∀ i, i < K → (availAfter s t0 b K n n).getD i [] = []) := by
  constructor
  · intro i k hi hk
    have h1 := (outerFold_spec s t0 b K n k).2.2.1 i hi
    have h2 := (outerFold_spec s t0 b K n (k + 1)).2.2.1 i hi
    rw [availAfter_eq_outerFold, availAfter_eq_outerFold, h1, h2]
    refine ⟨pyCeilDiv_le (by omega), ?_⟩
    rw [poolSeq_length_succ hs t0 K n (whList b K) i hk,
      (chosenIdx_spec hs t0 K n (whList b K) i hk).1]
  · intro i hi
    rw [availAfter_eq_outerFold, (outerFold_spec s t0 b K n n).2.2.1 i hi]
    exact poolSeq_terminal hs t0 K n (whList b K) i hn

/-- Witness for C3 at a concrete input. -/
theorem C3_pool_schedule_witness :
    ValidSampler takeSampler ∧ (1 : Nat) ≤ 2 ∧
    ((∀ i k, i < 2 → k < 2 →
      pyCeilDiv ((availAfter takeSampler 0 blkT 2 2 k).getD i []).length
          (2 - k) ≤
        ((availAfter takeSampler 0 blkT 2 2 k).getD i []).length ∧
      ((availAfter takeSampler 0 blkT 2 2 (k + 1)).getD i []).length =
        ((availAfter takeSampler 0 blkT 2 2 k).getD i []).length -
          pyCeilDiv ((availAfter takeSampler 0 blkT 2 2 k).getD i []).length
            (2 - k)) ∧
    (∀ i, i < 2 → (availAfter takeSampler 0 blkT 2 2 2).getD i [] = [])) :=
  ⟨takeSampler_valid, by decide,
    C3_pool_schedule takeSampler 0 blkT 2 2 takeSampler_valid (by decide)⟩

/-! ### The multi-block aggregator -/

theorem zipWith_append_getD (l1 : List (List Block)) (l2 : List Block)
    {i n : Nat} (h1 : l1.length = n) (h2 : l2.length = n) (hi : i < n) :
    (List.zipWith (fun l bl => l ++ [bl]) l1 l2).getD i [] =
      l1.getD i [] ++ [l2.getD i default] := by
  have hzl : (List.zipWith (fun l bl => l ++ [bl]) l1 l2).length = n := by
    rw [List.length_zipWith, h1, h2, Nat.min_self]
  rw [List.getD_eq_getElem _ _ (by rw [hzl]; exact hi),
    List.getElem_zipWith,
    List.getD_eq_getElem _ _ (by rw [h1]; exact hi),
    List.getD_eq_getElem _ _ (by rw [h2]; exact hi)]

theorem scatter_labels_run_append (s : Sampler) (t0 : Nat) (bs : List Block)
    (b : Block) (K n : Nat) :
    scatter_labels_run s t0 (bs ++ [b]) K n =
      (List.zipWith (fun l bl => l ++ [bl])
        (scatter_labels_run s t0 bs K n).1
        (scatterRun s (scatter_labels_run s t0 bs K n).2 b K n).1,
       (scatterRun s (scatter_labels_run s t0 bs K n).2 b K n).2.1) := by
  unfold scatter_labels_run
  rw [List.foldl_append, List.foldl_cons, List.foldl_nil]

theorem scatterRun_final_t (s : Sampler) (t : Nat) (b : Block) (K n : Nat) :
    (scatterRun s t b K n).2.1 = t + n * K := by
  rw [scatterRun_eq_outerFold]
  exact (outerFold_spec s t b K n n).1

theorem scatterRun_fst_length (s : Sampler) (t : Nat) (b : Block) (K n : Nat) :
    (scatterRun s t b K n).1.length = n := by
  rw [scatterRun_eq_outerFold]
  exact (outerFold_spec s t b K n n).2.2.2.1

theorem scatter_labels_run_spec (s : Sampler) (t0 : Nat) (blocks : List Block)
    (K n : Nat) :
    (scatter_labels_run s t0 blocks K n).2 = t0 + blocks.length * (n * K) ∧
    (scatter_labels_run s t0 blocks K n).1.length = n ∧
    (∀ i, i < n →
      ((scatter_labels_run s t0 blocks K n).1.getD i []).length =
        blocks.length) ∧
    (∀ i j, i < n → j < blocks.length →
      ((scatter_labels_run s t0 blocks K n).1.getD i []).getD j default =
        (scatter_labels_single_block s (t0 + j * (n * K))
          (blocks.getD j default) K n).getD i default) := by
  induction blocks using List.reverseRecOn with
  | nil =>
    refine ⟨by simp [scatter_labels_run], ?_, ?_,
      fun i j _ hj => absurd hj (Nat.not_lt_zero j)⟩
    · show ((List.range n).map (fun _ => ([] : List Block))).length = n
      simp
    · intro i hi
      show (((List.range n).map (fun _ => ([] : List Block))).getD i
        []).length = 0
      rw [List.getD_eq_getElem _ _ (by simpa using hi), List.getElem_map]
      rfl
  | append_singleton bs b ih =>
    obtain ⟨iht, ihlen, ihrow, ihel⟩ := ih
    have hrlen : (scatterRun s (scatter_labels_run s t0 bs K n).2 b K n).1.length
        = n := scatterRun_fst_length s _ b K n
    rw [scatter_labels_run_append]
    refine ⟨?_, ?_, ?_, ?_⟩
    · show (scatterRun s (scatter_labels_run s t0 bs K n).2 b K n).2.1 = _
      rw [scatterRun_final_t, iht, List.length_append]
      simp
      ring
    · show (List.zipWith _ _ _).length = n
      rw [List.length_zipWith, ihlen, hrlen, Nat.min_self]
    · intro i hi
      show ((List.zipWith _ _ _).getD i []).length = _
      rw [zipWith_append_getD _ _ ihlen hrlen hi, List.length_append,
        ihrow i hi, List.length_append]
      rfl
    · intro i j hi hj
      show ((List.zipWith _ _ _).getD i []).getD j default = _
      rw [zipWith_append_getD _ _ ihlen hrlen hi]
      rcases Nat.lt_or_ge j bs.length with hjb | hjb
      · rw [List.getD_append _ _ _ _ (by rw [ihrow i hi]; exact hjb),
          ihel i j hi hjb,
          List.getD_append _ _ _ _ hjb]
      · have hjeq : j = bs.length := by
          rw [List.length_append] at hj
          simp at hj
          omega
        subst hjeq
        rw [List.getD_append_right _ _ _ _ (by rw [ihrow i hi]),
          ihrow i hi, Nat.sub_self,
          List.getD_append_right _ _ _ _ (Nat.le_refl _), Nat.sub_self]
        show (scatterRun s (scatter_labels_run s t0 bs K n).2 b K n).1.getD i
            default = _
        rw [iht]
        rfl

/-- C7: the multi-block aggregator returns `n` sequences, each of the same
length and block order as the input sequence; element `j` of round `i`'s
sequence is round `i`'s subset of input block `j` (computed by the
single-block partitioner at the draw position reached after the first `j`
blocks), with no cross-block label redistribution. -/
theorem C7_aggregator_structure (s : Sampler) (t0 : Nat)
    (blocks : List Block) (K n : Nat) :
    (scatter_labels s t0 blocks K n).length = n ∧
    (∀ i, i < n →
      ((scatter_labels s t0 blocks K n).getD i []).length = blocks.length) ∧
    (∀ i j, i < n → j < blocks.length →
      ((scatter_labels s t0 blocks K n).getD i []).getD j default =
        (scatter_labels_single_block s (t0 + j * (n * K))
          (blocks.getD j default) K n).getD i default) := by
  obtain ⟨_, h2, h3, h4⟩ := scatter_labels_run_spec s t0 blocks K n
  exact ⟨h2, h3, h4⟩

/-- Witness for C7 at a concrete input. -/
theorem C7_aggregator_structure_witness :
    (scatter_labels takeSampler 0 [blkT, blk6] 2 2).length = 2 ∧
    ((scatter_labels takeSampler 0 [blkT, blk6] 2 2).getD 0 []).length = 2 ∧
    ((scatter_labels takeSampler 0 [blkT, blk6] 2 2).getD 1 []).getD 1
        default =
      (scatter_labels_single_block takeSampler (0 + 1 * (2 * 2)) blk6 2
          2).getD 1 default :=
  ⟨(C7_aggregator_structure takeSampler 0 [blkT, blk6] 2 2).1,
    (C7_aggregator_structure takeSampler 0 [blkT, blk6] 2 2).2.1 0 (by decide),
    (C7_aggregator_structure takeSampler 0 [blkT, blk6] 2 2).2.2 1 1
      (by decide) (by decide)⟩

/-! ### The autocontext call site -/

theorem scatter_labels_zero_rounds (s : Sampler) (t0 : Nat)
    (blocks : List Block) (Kc : Nat) :
    scatter_labels s t0 blocks Kc 0 = [] := by
  show (scatter_labels_run s t0 blocks Kc 0).1 = []
  unfold scatter_labels_run
  rw [List.range_zero, List.map_nil]
  induction blocks generalizing t0 with
  | nil => rfl
  | cons b bs ih =>
    rw [List.foldl_cons]
    exact ih _

/-- C9: whenever the label phase of autocontext reaches the scattering step
(`runs ≥ 1` and the weight-length check passes), the four-positional-argument
call `scatter_labels(blocks, label_count, runs, weights)` to the
three-parameter function raises a TypeError, so no training round is ever
performed (the phase returns an error instead of the round count). -/
theorem C9_call_arity_error (runs : Nat) (weights : Option (List Int))
    (hruns : 1 ≤ runs)
    (hw : ∀ ws, weights = some ws → runs ≤ ws.length) :
    scatter_labels_paramCount = 3 ∧ autocontext_scatterCall_argCount = 4 ∧
    autocontext_labels_phase runs weights = Except.error PyErr.typeError := by
  refine ⟨rfl, rfl, ?_⟩
  rcases weights with _ | ws
  · simp only [autocontext_labels_phase]
    rw [if_neg (by simp)]
    rfl
  · simp only [autocontext_labels_phase]
    rw [if_neg (by have := hw ws rfl; omega)]
    rfl

/-- Witness for C9 at a concrete input. -/
theorem C9_call_arity_error_witness :
    (1 : Nat) ≤ 3 ∧
    (∀ ws : List Int, (some [3, 2, 1] : Option (List Int)) = some ws →
      3 ≤ ws.length) ∧
    (scatter_labels_paramCount = 3 ∧ autocontext_scatterCall_argCount = 4 ∧
     autocontext_labels_phase 3 (some [3, 2, 1]) =
       Except.error PyErr.typeError) :=
  ⟨by decide,
    fun ws h => Option.some.inj h ▸ (by decide : 3 ≤ ([3, 2, 1] : List Int).length),
    C9_call_arity_error 3 (some [3, 2, 1]) (by decide)
      (fun ws h => Option.some.inj h ▸
        (by decide : 3 ≤ ([3, 2, 1] : List Int).length))⟩

/-- C4 counterexample: a split count smaller than 1 is not rejected with an
error: with `n = 0` the scatter silently returns an empty list of rounds even
though the input block holds labels. -/
theorem C4_counterexample_silent_zero :
    scatter_labels takeSampler 0 [blkT] 2 0 = [] ∧ npWhere blkT 1 ≠ [] :=
  ⟨rfl, by decide⟩

/-- C4 amended: a caller-declared weight count smaller than the number of
runs is rejected with an error before any sampling, but a split count smaller
than 1 is not rejected: the scatterer returns an empty list of rounds without
raising. -/
theorem C4_amended_validation (runs : Nat) (ws : List Int) (s : Sampler)
    (t0 : Nat) (blocks : List Block) (Kc : Nat) (hlen : ws.length < runs) :
    autocontext_labels_phase runs (some ws) = Except.error PyErr.exception ∧
    scatter_labels s t0 blocks Kc 0 = [] := by
  constructor
  · simp only [autocontext_labels_phase]
    rw [if_pos hlen]
  · exact scatter_labels_zero_rounds s t0 blocks Kc

/-- Witness for C4 at a concrete input. -/
theorem C4_amended_validation_witness :
    ([1] : List Int).length < 2 ∧
    (autocontext_labels_phase 2 (some [1]) = Except.error PyErr.exception ∧
     scatter_labels takeSampler 0 [blk6] 2 0 = []) :=
  ⟨by decide, C4_amended_validation 2 [1] takeSampler 0 [blk6] 2 (by decide)⟩

/-- C2: the docstring of autocontext promises that with `runs = 3` and
`weights = [3, 2, 1]` half of the labels are used in the first round — 3 of
the 6 class-1 voxels of `blk6`.  The code's scatterer takes no weights and
divides the remaining pool equally, so round 0 receives `ceil(6/3) = 2`
labels, and the four-argument call raises a TypeError anyway. -/
theorem C2_weights_never_applied :
    ((scatter_labels_single_block takeSampler 0 blk6 1 3).getD 0
        default).data.count 1 = 2 ∧
    (2 : Nat) ≠ 3 ∧
    autocontext_labels_phase 3 (some [3, 2, 1]) =
      Except.error PyErr.typeError :=
  ⟨by decide, by decide, rfl⟩

end Autocontext
